import Mathlib

/-!
Verification of the gap-buffer core of the `vce` editor (src/vce.c).

The C program keeps a fixed arena `buf[0..BUF)` with two boundaries
`gap` (gapStart) and `egap` (gapEnd); bytes outside `[gap, egap)` are the
live document.  Pointers into the arena are modelled as natural-number
addresses relative to `buf` (so `buf` itself is address `0` and
`ebuf = buf + BUF` is address `cap`).  Logical offsets are `Int`, exactly
as the C `int` offsets.  Machine-level I/O (terminal escapes, file
descriptors) is outside the modelled core; every state change of the C
functions is modelled.
-/

namespace Vce

/-- The storage arena of `vce.c`: capacity `cap` (the `BUF` constant),
physical byte contents `data` (addresses `0 ≤ a < cap`), and the gap
boundaries `gap` (the C global `gap`) and `egap` (the C global `egap`). -/
structure GapBuf where
  cap : Nat
  data : Nat → Nat
  gap : Nat
  egap : Nat

/-- Buffer well-formedness, the invariant `buf ≤ gap ≤ egap ≤ ebuf`
maintained by `init_buf` and every editing operation. -/
def WF (b : GapBuf) : Prop := b.gap ≤ b.egap ∧ b.egap ≤ b.cap

/-- Function `ptr` from vce.c lines 129-137: logical offset to physical address.
`if (offset < 0) return buf; return buf + offset + (buf + offset < gap ? 0 : egap - gap);` -/
def ptr (b : GapBuf) (offset : Int) : Nat :=
  if offset < 0 then 0
  else if offset.toNat < b.gap then offset.toNat
  else offset.toNat + (b.egap - b.gap)

/-- Function `pos` from vce.c lines 139-144: physical address to logical offset.
`return pointer - buf - (pointer < egap ? 0 : egap - gap);` -/
def pos (b : GapBuf) (a : Nat) : Int :=
  (a : Int) - (if a < b.egap then 0 else ((b.egap - b.gap : Nat) : Int))

/-- Length of the logical document: live prefix plus live suffix,
`(gap - buf) + (ebuf - egap)` in pointer terms. -/
def docLength (b : GapBuf) : Nat := b.gap + (b.cap - b.egap)

/-- The logical document: byte `k` of the document is the arena byte at
the physical address of logical offset `k`. -/
def doc (b : GapBuf) : List Nat :=
  (List.range (docLength b)).map fun k : Nat => b.data (ptr b (k : Int))

/-- A concrete well-formed buffer used to witness the theorems:
document `[104, 105, 10, 119, 122]`, capacity 8, gap `[2, 5)`. -/
def exB : GapBuf :=
  { cap := 8, data := fun a => [104, 105, 0, 0, 0, 10, 119, 122].getD a 0,
    gap := 2, egap := 5 }

/-- One iteration of the first `movegap` loop (vce.c lines 151-152):
`*--egap = *--gap;` — both boundaries step left and the byte just left of
the old gap is copied to just left of the old gap end. -/
def stepLeft (b : GapBuf) : GapBuf :=
  { b with
    data := fun a => if a = b.egap - 1 then b.data (b.gap - 1) else b.data a,
    gap := b.gap - 1, egap := b.egap - 1 }

/-- One iteration of the second `movegap` loop (vce.c lines 154-155):
`*gap++ = *egap++;`. -/
def stepRight (b : GapBuf) : GapBuf :=
  { b with
    data := fun a => if a = b.gap then b.data b.egap else b.data a,
    gap := b.gap + 1, egap := b.egap + 1 }

/-- The first `movegap` loop, run `n` times (`n = gap - p` iterations of
`while (p < gap)`, since `gap` decreases by one each iteration). -/
def shiftLeft : GapBuf → Nat → GapBuf
  | b, 0 => b
  | b, n + 1 => shiftLeft (stepLeft b) n

/-- The second `movegap` loop, run `n` times (`n = p - egap` iterations of
`while (egap < p)`, since `egap` increases by one each iteration). -/
def shiftRight : GapBuf → Nat → GapBuf
  | b, 0 => b
  | b, n + 1 => shiftRight (stepRight b) n

/-- Function `movegap` from vce.c lines 146-158, acting on the buffer and the
cursor `idx`; returns the new buffer and the new `idx = pos(egap)`. -/
def movegap (b : GapBuf) (idx : Int) : GapBuf × Int :=
  let p := ptr b idx
  let b1 := shiftLeft b (b.gap - p)
  let b2 := shiftRight b1 (p - b1.egap)
  (b2, pos b2 b2.egap)

/-- The branch body of `insert` (vce.c lines 232-237) after the gap has
been moved: backspace/DEL shrink the prefix, otherwise a byte is stored
into the gap front when there is room (CR normalized to NL). -/
def insertBuf (b1 : GapBuf) (ch : Nat) : GapBuf :=
  if ch = 8 ∨ ch = 127 then
    if 0 < b1.gap then { b1 with gap := b1.gap - 1 } else b1
  else if b1.gap < b1.egap then
    { b1 with
      data := fun a => if a = b1.gap then (if ch = 13 then 10 else ch) else b1.data a,
      gap := b1.gap + 1 }
  else b1

/-- Function `insert` from vce.c lines 226-240: move the gap to the cursor, apply
the byte (store, or backward delete for `\b`/DEL), set `idx = pos(egap)`. -/
def insert (b : GapBuf) (idx : Int) (ch : Nat) : GapBuf × Int :=
  let b1 := (movegap b idx).1
  let b2 := insertBuf b1 ch
  (b2, pos b2 b2.egap)

/-- The scan loop of `prevline` (vce.c lines 160-169), with explicit fuel
(the loop decrements `offset` each iteration and must stop by the time
`offset` goes negative, so `offset.toNat + 1` fuel is always enough):
`while (buf < (p = ptr(--offset)) && *p != '\n'); return (buf < p ? ++offset : 0);` -/
def prevlineAux (b : GapBuf) : Nat → Int → Int
  | 0, offset => offset
  | fuel + 1, offset =>
    let o := offset - 1
    let p := ptr b o
    if 0 < p ∧ b.data p ≠ 10 then prevlineAux b fuel o
    else if 0 < p then o + 1 else 0

/-- Function `prevline` from vce.c lines 160-169. -/
def prevline (b : GapBuf) (offset : Int) : Int :=
  prevlineAux b (offset.toNat + 1) offset

/-- The scan loop of `nextline` (vce.c lines 171-180), with explicit fuel
(`offset` increments each iteration and the loop stops once
`ptr(offset) ≥ ebuf`, so `(docLength - offset) + 1` fuel is enough):
`while ((p = ptr(offset++)) < ebuf && *p != '\n'); return (p < ebuf ? offset : pos(ebuf));` -/
def nextlineAux (b : GapBuf) : Nat → Int → Int
  | 0, offset => offset
  | fuel + 1, offset =>
    let p := ptr b offset
    if p < b.cap then
      if b.data p ≠ 10 then nextlineAux b fuel (offset + 1) else offset + 1
    else pos b b.cap

/-- Function `nextline` from vce.c lines 171-180. -/
def nextline (b : GapBuf) (offset : Int) : Int :=
  nextlineAux b (((docLength b : Int) - offset).toNat + 1) offset

/-- The column walk of `adjust` (vce.c lines 182-194), with explicit fuel
(`offset` increments each iteration and the loop stops once
`ptr(offset) ≥ ebuf`). -/
def adjustAux (b : GapBuf) (column : Nat) : Nat → Int → Nat → Int
  | 0, offset, _ => offset
  | fuel + 1, offset, i =>
    let p := ptr b offset
    if p < b.cap ∧ b.data p ≠ 10 ∧ i < column then
      adjustAux b column fuel (offset + 1) (i + (if b.data p = 9 then 8 - i % 8 else 1))
    else offset

/-- Function `adjust` from vce.c lines 182-194: tab-aware resolution of a display
column to a logical offset on the line starting at `offset`. -/
def adjust (b : GapBuf) (offset : Int) (column : Nat) : Int :=
  adjustAux b column (((docLength b : Int) - offset).toNat + 1) offset 0

/-- Function `get_lineno` from vce.c lines 304-314: `line = 1;` then count a line
for every `'\n'` among the raw arena bytes `buf[0] .. buf[idx-1]`
(physical addresses, not logical offsets). -/
def get_lineno (b : GapBuf) (idx : Int) : Nat :=
  1 + (List.range idx.toNat).countP fun i => b.data i == 10

/-- The state of one render-loop pass of `update_display`
(vce.c lines 337-365): the screen array, the row/column counters `i`/`j`,
the running offset `epage`, and the recorded cursor cell `row`/`col`. -/
structure RenderSt where
  scr : Nat → Nat → Nat
  i : Nat
  j : Nat
  epage : Int
  row : Nat
  col : Nat

/-- The tab-expansion loop `while (k--) screen[i][j++] = ' ';`
(vce.c lines 354-355). -/
def tabSpaces (scr : Nat → Nat → Nat) (i : Nat) : Nat → Nat → (Nat → Nat → Nat) × Nat
  | j, 0 => (scr, j)
  | j, k + 1 => tabSpaces (fun r c => if r = i ∧ c = j then 32 else scr r c) i (j + 1) k

/-- The step `if (idx == epage) row = i, col = j` of vce.c lines 342-345. -/
def recordCursor (idx : Int) (st : RenderSt) : RenderSt :=
  if idx = st.epage then { st with row := st.i, col := st.j } else st

/-- Placing one byte on the grid (vce.c lines 349-363): CR is skipped,
NL emits one space cell, TAB pads to the next multiple of 8, anything
else is copied; then the row advances on NL or when `j` has reached
`COL_MAX`. -/
def placeByte (colMax c : Nat) (st1 : RenderSt) : RenderSt :=
  let st2 :=
    if c ≠ 13 then
      if c = 10 then
        { st1 with
          scr := fun r cc => if r = st1.i ∧ cc = st1.j then 32 else st1.scr r cc,
          j := st1.j + 1 }
      else if c = 9 then
        { st1 with
          scr := (tabSpaces st1.scr st1.i st1.j (8 - st1.j % 8)).1,
          j := (tabSpaces st1.scr st1.i st1.j (8 - st1.j % 8)).2 }
      else
        { st1 with
          scr := fun r cc => if r = st1.i ∧ cc = st1.j then c else st1.scr r cc,
          j := st1.j + 1 }
    else st1
  if c = 10 ∨ colMax ≤ st2.j then { st2 with i := st2.i + 1, j := 0 } else st2

/-- The render loop of `update_display` (vce.c lines 341-365), with
explicit fuel (`epage` increments every iteration and the loop breaks
once `ptr(epage) ≥ ebuf`).  Each iteration: record `(row, col) := (i, j)`
when `idx == epage`, break when `i` is past the last text row or the
document is exhausted, otherwise place the byte and advance `epage`. -/
def renderAux (b : GapBuf) (idx : Int) (rowMax colMax : Nat) :
    Nat → RenderSt → RenderSt
  | 0, st => st
  | fuel + 1, st =>
    let st1 := recordCursor idx st
    let p := ptr b st1.epage
    if rowMax - 1 ≤ st1.i ∨ b.cap ≤ p then st1
    else
      let st3 := placeByte colMax (b.data p) st1
      renderAux b idx rowMax colMax fuel { st3 with epage := st3.epage + 1 }

/-- The page walk-back loop of `update_display` (vce.c lines 333-334):
`while (0 < i--) page = prevline(page - 1);`. -/
def walkBack (b : GapBuf) : Nat → Int → Int
  | 0, pg => pg
  | n + 1, pg => walkBack b n (prevline b (pg - 1))

/-- The whole editor state: the arena, the cursor `idx`, the viewport
globals `page`/`epage`, the recorded cursor cell `row`/`col`, the
modeline line number `line`, the `dirty` flag and the screen array
(`screen[ROW_MAX-1][COL_MAX]`), i.e. the globals of vce.c lines 69-76. -/
structure EdState where
  buf : GapBuf
  idx : Int
  page : Int
  epage : Int
  row : Nat
  col : Nat
  line : Nat
  dirty : Bool
  scr : Nat → Nat → Nat

/-- Function `update_display` from vce.c lines 316-388 (the terminal writes under
`#ifdef ANSI` are external I/O; every state change is modelled):
scroll the page if the cursor left it, rerun the render loop, then
recompute `line` via `get_lineno` (`update_modeline` only formats text
from values modelled here and touches no modelled state). -/
def update_display (rowMax colMax : Nat) (s : EdState) : EdState :=
  let b := s.buf
  let page2 :=
    if s.epage ≤ s.idx then
      let pg := nextline b s.idx
      walkBack b (if pg = pos b b.cap then rowMax - 3 else rowMax - 1) pg
    else if s.idx < s.page then prevline b s.idx
    else s.page
  let st0 : RenderSt :=
    { scr := fun _ _ => 32, i := 0, j := 0, epage := page2, row := s.row, col := s.col }
  let st1 := renderAux b s.idx rowMax colMax (((docLength b : Int) - page2).toNat + 1) st0
  { s with page := page2, epage := st1.epage, row := st1.row, col := st1.col,
           line := get_lineno b s.idx, scr := st1.scr }

/-- The commands of the main loop (vce.c lines 640-689) that touch the
modelled core state. -/
inductive Cmd where
  | moveLeft
  | moveRight
  | moveUp
  | moveDown
  | ins (ch : Nat)
  | save

/-- One command dispatch of the main loop: `left`, `right`, `up`, `down`
(vce.c lines 196-224), `insert`, and the state effect of the successful
path of `save_file` (vce.c lines 488-537: `idx = 0; movegap(); write;
idx = saveidx; dirty = 0;` — the file write itself is external I/O). -/
def applyCmd (c : Cmd) (s : EdState) : EdState :=
  match c with
  | .moveLeft => if 0 < s.idx then { s with idx := s.idx - 1 } else s
  | .moveRight => if s.idx < pos s.buf s.buf.cap then { s with idx := s.idx + 1 } else s
  | .moveUp =>
      { s with idx := adjust s.buf (prevline s.buf (prevline s.buf s.idx - 1)) s.col }
  | .moveDown => { s with idx := adjust s.buf (nextline s.buf s.idx) s.col }
  | .ins ch => { s with buf := (insert s.buf s.idx ch).1, idx := (insert s.buf s.idx ch).2 }
  | .save => { s with buf := (movegap s.buf 0).1, dirty := false }

/-- The main loop (vce.c lines 636-690): each iteration runs
`update_display` and then dispatches one decoded command. -/
def exec (rowMax colMax : Nat) (s : EdState) : List Cmd → EdState
  | [] => s
  | c :: cs => exec rowMax colMax (applyCmd c (update_display rowMax colMax s)) cs

/-- The state after `init_buf` (vce.c lines 539-564: `calloc` zeroed
arena, `gap = buf`, `egap = ebuf`) and the `__unix__` file load
(vce.c lines 604-632: content read to the arena start, `gap += n`),
with the initial globals of vce.c lines 74-76
(`col = 0, row = 1, line = 1, idx = page = epage = dirty = 0`). -/
def initState (cap : Nat) (content : List Nat) : EdState :=
  { buf := { cap := cap, data := fun a => content.getD a 0,
             gap := content.length, egap := cap },
    idx := 0, page := 0, epage := 0, row := 1, col := 0, line := 1,
    dirty := false, scr := fun _ _ => 0 }

/-- Modelled from the spec (§4.4 `lineStart`): scan backward from
`offset-1` while the byte is not a newline and the position is inside the
document; return the offset just after the newline found, else 0.  Used
only to compare the code's `prevline` against the spec's words. -/
def lineStartSpec (l : List Nat) : Nat → Nat
  | 0 => 0
  | k + 1 => if l.getD k 0 = 10 then k + 1 else lineStartSpec l k

/-- Like `lineStartSpec` but never examining the byte at offset 0: the
backward scan stops as soon as it reaches offset 0.  This is what
`prevline`'s `buf < p` guard implements whenever logical offset 0 is
mapped to the physical buffer start. -/
def lineStartSkip0 (l : List Nat) : Nat → Nat
  | 0 => 0
  | k + 1 =>
    if k = 0 then 0
    else if l.getD k 0 = 10 then k + 1 else lineStartSkip0 l k

/-- Document used by the viewport counterexample: one 17-byte line that
wraps over two 16-column display rows, then three one-byte lines. -/
def exDoc7 : List Nat := List.replicate 17 98 ++ [10, 97, 10, 97, 10, 97, 10]

/-- A full buffer (document `[104, 105]`, capacity 2, zero-length gap). -/
def exBFull : GapBuf :=
  { cap := 2, data := fun a => [104, 105].getD a 0, gap := 2, egap := 2 }

/-- Reachable state for C3: empty start, one byte typed. -/
def exS3 : EdState := exec 4 16 (initState 8 []) [Cmd.ins 97]

/-- Reachable state for C6: document `[120]` with the cursor moved to
offset 1. -/
def exS6 : EdState := exec 4 16 (initState 4 [120]) [Cmd.moveRight]

/-- Reachable state for C7: the wrapped-line document, two `MoveDown`
commands, then one more render pass (`ROW_MAX = 4`, `COL_MAX = 16`). -/
def exS7 : EdState :=
  update_display 4 16 (exec 4 16 (initState 32 exDoc7) [Cmd.moveDown, Cmd.moveDown])

/-- Reachable state for C8: type `a`, `b`, move left twice, type a
newline, backspace it away, then move right twice — this leaves a stale
newline byte inside the gap below the cursor — and render. -/
def exS8 : EdState :=
  update_display 4 16 (exec 4 16 (initState 8 [])
    [Cmd.ins 97, Cmd.ins 98, Cmd.moveLeft, Cmd.moveLeft, Cmd.ins 10, Cmd.ins 8,
     Cmd.moveRight, Cmd.moveRight])

theorem ptr_natCast (b : GapBuf) (k : Nat) :
    ptr b (k : Int) = if k < b.gap then k else k + (b.egap - b.gap) := by
  simp [ptr]

theorem ptr_nonneg_le (b : GapBuf) (hwf : WF b) (o : Int) (h0 : 0 ≤ o)
    (h1 : o ≤ (docLength b : Int)) : ptr b o ≤ b.cap := by
  obtain ⟨hg, hc⟩ := hwf
  unfold ptr docLength at *
  split_ifs with hneg hlt <;> omega

/-- C1: for every well-formed buffer state, `pos` is a left inverse of
`ptr` on all valid logical offsets `0 ≤ o ≤ documentLength`, and `ptr` is
a left inverse of `pos` on all valid physical addresses outside the gap
region `[gap, egap)`. -/
theorem C1_addr_inverse (b : GapBuf) (hwf : WF b) :
    (∀ o : Int, 0 ≤ o → o ≤ (docLength b : Int) → pos b (ptr b o) = o) ∧
    (∀ a : Nat, a ≤ b.cap → (a < b.gap ∨ b.egap ≤ a) → ptr b (pos b a) = a) := by
  obtain ⟨hg, hc⟩ := hwf
  constructor
  · intro o h0 h1
    unfold ptr pos docLength at *
    split_ifs <;> omega
  · intro a ha hout
    unfold ptr pos at *
    split_ifs <;> omega

theorem mapRange_congr {α : Type} (f g : Nat → α) (n : Nat)
    (h : ∀ k, k < n → f k = g k) :
    (List.range n).map f = (List.range n).map g := by
  induction n with
  | zero => rfl
  | succ m ih =>
    rw [List.range_succ, List.map_append, List.map_append,
      ih (fun k hk => h k (by omega))]
    simp [h m (by omega)]

theorem shiftLeft_fields (b : GapBuf) (n : Nat) :
    (shiftLeft b n).cap = b.cap ∧ (shiftLeft b n).gap = b.gap - n ∧
      (shiftLeft b n).egap = b.egap - n := by
  induction n generalizing b with
  | zero => exact ⟨rfl, rfl, rfl⟩
  | succ m ih =>
    obtain ⟨h1, h2, h3⟩ := ih (stepLeft b)
    refine ⟨h1, ?_, ?_⟩ <;> simp [shiftLeft, stepLeft] at * <;> omega

theorem shiftRight_fields (b : GapBuf) (n : Nat) :
    (shiftRight b n).cap = b.cap ∧ (shiftRight b n).gap = b.gap + n ∧
      (shiftRight b n).egap = b.egap + n := by
  induction n generalizing b with
  | zero => exact ⟨rfl, rfl, rfl⟩
  | succ m ih =>
    obtain ⟨h1, h2, h3⟩ := ih (stepRight b)
    refine ⟨h1, ?_, ?_⟩ <;> simp [shiftRight, stepRight] at * <;> omega

theorem stepLeft_byte (b : GapBuf) (hwf : WF b) (h1 : 1 ≤ b.gap) (k : Nat) :
    (stepLeft b).data (ptr (stepLeft b) (k : Int)) = b.data (ptr b (k : Int)) := by
  obtain ⟨hg, hc⟩ := hwf
  rw [ptr_natCast, ptr_natCast]
  simp only [stepLeft]
  split_ifs <;> first | rfl | (congr 1; omega)

theorem stepRight_byte (b : GapBuf) (hwf : WF b) (k : Nat) :
    (stepRight b).data (ptr (stepRight b) (k : Int)) = b.data (ptr b (k : Int)) := by
  obtain ⟨hg, hc⟩ := hwf
  rw [ptr_natCast, ptr_natCast]
  simp only [stepRight]
  split_ifs <;> first | rfl | (congr 1; omega)

theorem shiftLeft_doc (b : GapBuf) (n : Nat) (hwf : WF b) (hn : n ≤ b.gap) :
    WF (shiftLeft b n) ∧ docLength (shiftLeft b n) = docLength b ∧
      doc (shiftLeft b n) = doc b := by
  induction n generalizing b with
  | zero => exact ⟨hwf, rfl, rfl⟩
  | succ m ih =>
    obtain ⟨hg, hc⟩ := hwf
    have hwf1 : WF (stepLeft b) := ⟨by simp [stepLeft]; omega, by simp [stepLeft]; omega⟩
    have hlen1 : docLength (stepLeft b) = docLength b := by
      simp [docLength, stepLeft]; omega
    obtain ⟨ih1, ih2, ih3⟩ := ih (stepLeft b) hwf1 (by simp [stepLeft]; omega)
    refine ⟨by simpa [shiftLeft] using ih1, ?_, ?_⟩
    · simp only [shiftLeft]
      omega
    · show doc (shiftLeft (stepLeft b) m) = doc b
      rw [ih3]
      unfold doc
      rw [hlen1]
      exact mapRange_congr _ _ _ fun k _ => stepLeft_byte b ⟨hg, hc⟩ (by omega) k

theorem shiftRight_doc (b : GapBuf) (n : Nat) (hwf : WF b) (hn : b.egap + n ≤ b.cap) :
    WF (shiftRight b n) ∧ docLength (shiftRight b n) = docLength b ∧
      doc (shiftRight b n) = doc b := by
  induction n generalizing b with
  | zero => exact ⟨hwf, rfl, rfl⟩
  | succ m ih =>
    obtain ⟨hg, hc⟩ := hwf
    have hwf1 : WF (stepRight b) := ⟨by simp [stepRight]; omega, by simp [stepRight]; omega⟩
    have hlen1 : docLength (stepRight b) = docLength b := by
      simp [docLength, stepRight]; omega
    obtain ⟨ih1, ih2, ih3⟩ := ih (stepRight b) hwf1 (by simp [stepRight]; omega)
    refine ⟨by simpa [shiftRight] using ih1, ?_, ?_⟩
    · simp only [shiftRight]
      omega
    · show doc (shiftRight (stepRight b) m) = doc b
      rw [ih3]
      unfold doc
      rw [hlen1]
      exact mapRange_congr _ _ _ fun k _ => stepRight_byte b ⟨hg, hc⟩ k

theorem pos_egap (b : GapBuf) (hwf : WF b) : pos b b.egap = (b.gap : Int) := by
  obtain ⟨hg, hc⟩ := hwf
  unfold pos
  split_ifs <;> omega

/-- The physical target `p = ptr(idx)` of a gap move, for a cursor in
`[0, documentLength]`, never lands strictly inside the gap and stays
within the arena. -/
theorem ptr_target (b : GapBuf) (hwf : WF b) (idx : Int) (h0 : 0 ≤ idx)
    (h1 : idx ≤ (docLength b : Int)) :
    ptr b idx ≤ b.cap ∧ (ptr b idx ≤ b.gap ∨ b.egap ≤ ptr b idx) ∧
      (idx.toNat < b.gap → ptr b idx = idx.toNat) ∧
      (b.gap ≤ idx.toNat → ptr b idx = idx.toNat + (b.egap - b.gap)) := by
  obtain ⟨hg, hc⟩ := hwf
  unfold ptr docLength at *
  split_ifs <;> omega

theorem movegap_fields (b : GapBuf) (hwf : WF b) (idx : Int) (h0 : 0 ≤ idx)
    (h1 : idx ≤ (docLength b : Int)) :
    (movegap b idx).1.cap = b.cap ∧ (movegap b idx).1.gap = idx.toNat ∧
      (movegap b idx).1.egap = idx.toNat + (b.egap - b.gap) := by
  obtain ⟨hg, hc⟩ := hwf
  obtain ⟨hp1, hp2, hp3, hp4⟩ := ptr_target b ⟨hg, hc⟩ idx h0 h1
  have h2 : (movegap b idx).1 =
      shiftRight (shiftLeft b (b.gap - ptr b idx))
        (ptr b idx - (shiftLeft b (b.gap - ptr b idx)).egap) := rfl
  obtain ⟨l1, l2, l3⟩ := shiftLeft_fields b (b.gap - ptr b idx)
  obtain ⟨r1, r2, r3⟩ :=
    shiftRight_fields (shiftLeft b (b.gap - ptr b idx))
      (ptr b idx - (shiftLeft b (b.gap - ptr b idx)).egap)
  rw [h2, r1, r2, r3, l1, l2, l3]
  unfold docLength at h1
  rcases Nat.lt_or_ge idx.toNat b.gap with h | h
  · have hv := hp3 h
    omega
  · have hv := hp4 h
    omega

theorem movegap_doc (b : GapBuf) (hwf : WF b) (idx : Int) (h0 : 0 ≤ idx)
    (h1 : idx ≤ (docLength b : Int)) :
    WF (movegap b idx).1 ∧ docLength (movegap b idx).1 = docLength b ∧
      doc (movegap b idx).1 = doc b ∧ (movegap b idx).2 = idx := by
  obtain ⟨hg, hc⟩ := hwf
  obtain ⟨hp1, hp2, hp3, hp4⟩ := ptr_target b ⟨hg, hc⟩ idx h0 h1
  obtain ⟨lw, ll, ld⟩ := shiftLeft_doc b (b.gap - ptr b idx) ⟨hg, hc⟩ (by omega)
  obtain ⟨l1, l2, l3⟩ := shiftLeft_fields b (b.gap - ptr b idx)
  obtain ⟨rw1, rl, rd⟩ :=
    shiftRight_doc (shiftLeft b (b.gap - ptr b idx))
      (ptr b idx - (shiftLeft b (b.gap - ptr b idx)).egap) lw (by rw [l1, l3]; omega)
  obtain ⟨mc, mg, me⟩ := movegap_fields b ⟨hg, hc⟩ idx h0 h1
  have h2 : (movegap b idx).1 =
      shiftRight (shiftLeft b (b.gap - ptr b idx))
        (ptr b idx - (shiftLeft b (b.gap - ptr b idx)).egap) := rfl
  refine ⟨by rw [h2]; exact rw1, by rw [h2, rl, ll], by rw [h2, rd, ld], ?_⟩
  have h3 : (movegap b idx).2 = pos (movegap b idx).1 (movegap b idx).1.egap := rfl
  rw [h3, pos_egap _ (by rw [h2]; exact rw1), mg]
  omega

/-- Running `movegap` with the target already at the gap is a complete no-op:
both copy loops run zero iterations. -/
theorem movegap_at_gap (b : GapBuf) (hwf : WF b) :
    movegap b (b.gap : Int) = (b, (b.gap : Int)) := by
  obtain ⟨hg, hc⟩ := hwf
  have hp : ptr b (b.gap : Int) = b.egap := by
    rw [ptr_natCast]
    split_ifs <;> omega
  simp only [movegap, hp]
  have h1 : b.gap - b.egap = 0 := by omega
  rw [h1]
  simp only [shiftLeft, Nat.sub_self]
  simp only [shiftRight]
  rw [pos_egap b ⟨hg, hc⟩]

/-- C2: for every well-formed buffer state and every target cursor offset
in `[0, documentLength]`, `movegap` leaves the logical document and its
length unchanged; when the target equals the current gap position the
whole state is unchanged. -/
theorem C2_movegap_conserves (b : GapBuf) (hwf : WF b) (idx : Int)
    (h0 : 0 ≤ idx) (h1 : idx ≤ (docLength b : Int)) :
    doc (movegap b idx).1 = doc b ∧ docLength (movegap b idx).1 = docLength b ∧
      (idx = (b.gap : Int) → movegap b idx = (b, idx)) := by
  obtain ⟨hw, hl, hd, hi⟩ := movegap_doc b hwf idx h0 h1
  exact ⟨hd, hl, fun h => by rw [h]; exact movegap_at_gap b hwf⟩

theorem C2_witness :
    WF exB ∧ (0 : Int) ≤ 4 ∧ (4 : Int) ≤ (docLength exB : Int) ∧
      (doc (movegap exB 4).1 = doc exB ∧ docLength (movegap exB 4).1 = docLength exB ∧
        ((4 : Int) = (exB.gap : Int) → movegap exB 4 = (exB, 4))) :=
  ⟨⟨by decide, by decide⟩, by decide, by decide,
    C2_movegap_conserves exB ⟨by decide, by decide⟩ 4 (by decide) (by decide)⟩

theorem C1_witness :
    WF exB ∧ (0 : Int) ≤ 3 ∧ (3 : Int) ≤ (docLength exB : Int) ∧
      pos exB (ptr exB 3) = 3 ∧
      6 ≤ exB.cap ∧ (6 < exB.gap ∨ exB.egap ≤ 6) ∧ ptr exB (pos exB 6) = 6 :=
  ⟨⟨by decide, by decide⟩, by decide, by decide,
    (C1_addr_inverse exB ⟨by decide, by decide⟩).1 3 (by decide) (by decide),
    by decide, by decide,
    (C1_addr_inverse exB ⟨by decide, by decide⟩).2 6 (by decide) (by decide)⟩

theorem ptr_pos_offset (b : GapBuf) (o : Int) (h : 0 < ptr b o) : 0 ≤ o := by
  by_contra hneg
  push_neg at hneg
  unfold ptr at h
  rw [if_pos hneg] at h
  exact absurd h (by omega)

theorem prevlineAux_nonneg (b : GapBuf) :
    ∀ fuel offset, offset.toNat + 1 ≤ fuel → 0 ≤ prevlineAux b fuel offset := by
  intro fuel
  induction fuel with
  | zero => intro offset h; exact absurd h (by omega)
  | succ f ih =>
    intro offset h
    simp only [prevlineAux]
    split_ifs with h1 h2
    · apply ih
      have h3 := ptr_pos_offset b (offset - 1) h1.1
      omega
    · have h3 := ptr_pos_offset b (offset - 1) h2
      omega
    · omega

/-- C9: `ptr` is total over all integer offsets and maps every negative
offset to the buffer start (address 0), so the backward scan of
`prevline` — including the `prevline(-1)` evaluated by `up()` on the
first line — stops at the buffer start and never produces a negative
result offset. -/
theorem C9_ptr_total_negative (b : GapBuf) :
    (∀ o : Int, o < 0 → ptr b o = 0) ∧ prevline b (-1) = 0 ∧
      ∀ o : Int, 0 ≤ prevline b o := by
  refine ⟨fun o ho => by unfold ptr; rw [if_pos ho], rfl, fun o => ?_⟩
  exact prevlineAux_nonneg b (o.toNat + 1) o (by omega)

theorem C9_witness :
    (-7 : Int) < 0 ∧ ptr exB (-7) = 0 ∧ prevline exB (-1) = 0 ∧ 0 ≤ prevline exB 4 :=
  ⟨by decide, (C9_ptr_total_negative exB).1 (-7) (by decide),
    (C9_ptr_total_negative exB).2.1, (C9_ptr_total_negative exB).2.2 4⟩

/-- C3 counterexample: from the empty initial state, one successful
`insert` changes the document but leaves the dirty flag false — the code
never sets `dirty` anywhere. -/
theorem C3_counterexample :
    doc exS3.buf ≠ doc (initState 8 []).buf ∧ exS3.dirty = false := by
  constructor
  · decide
  · rfl

/-- C3 amended: insert and backward delete leave the dirty flag exactly
as it was (vce.c never sets it); the successful save path clears it. -/
theorem C3_dirty_amended (s : EdState) (ch : Nat) :
    (applyCmd (Cmd.ins ch) s).dirty = s.dirty ∧ (applyCmd Cmd.save s).dirty = false :=
  ⟨rfl, rfl⟩

/-- C4 counterexample: document `"\nx"` loaded from file (gap at the
end); the nearest newline strictly before offset 1 is at offset 0, so the
claim demands `prevline(1) = 1` (as `lineStartSpec` computes), but the
code returns 0 because logical offset 0 maps to the physical buffer
start, which the `buf < p` guard excludes from the scan. -/
theorem C4_counterexample :
    prevline (initState 8 [10, 120]).buf 1 = 0 ∧
      lineStartSpec (doc (initState 8 [10, 120]).buf) 1 = 1 := by
  constructor
  · rfl
  · decide

/-- C6 counterexample: byte `b = 8` (backspace) refutes the unrestricted
round-trip: on the reachable state with document `[120]` and cursor 1,
`insert 8` is itself a backward delete, so insert-then-delete yields the
empty document, not the original. -/
theorem C6_counterexample :
    doc (insert (insert exS6.buf exS6.idx 8).1 (insert exS6.buf exS6.idx 8).2 8).1 ≠
      doc exS6.buf := by decide

/-- C7 counterexample: with `ROW_MAX = 4`, `COL_MAX = 16` the text grid
has 3 rows; on the reachable state `exS7` (a 17-byte wrapped first line
pushes the cursor's line one row past the window) the render pass records
`row = 3`, violating `row < ROWS`. -/
theorem C7_counterexample : exS7.row = 3 ∧ ¬(exS7.row < 4 - 1) := by
  constructor
  · decide
  · decide

/-- C8: evaluation at the failing input.  On the reachable state `exS8`
the reported line number is 2 — `get_lineno` counted a stale newline
left inside the gap — while the live document prefix before the cursor
(`[97, 98]`, cursor at 2) contains no newline, so the claim (and spec)
demand 1. -/
theorem C8_lineno_stale_eval :
    exS8.line = 2 ∧ 1 + ((doc exS8.buf).take exS8.idx.toNat).count 10 = 1 := by
  constructor
  · decide
  · decide

/-- C5: inserting any non-delete byte into a full buffer
(`documentLength = CAPACITY`, zero-length gap) is silently dropped: the
document, its length and the cursor are all unchanged. -/
theorem C5_full_insert_dropped (b : GapBuf) (hwf : WF b) (idx : Int) (h0 : 0 ≤ idx)
    (h1 : idx ≤ (docLength b : Int)) (hfull : docLength b = b.cap)
    (ch : Nat) (h8 : ch ≠ 8) (h127 : ch ≠ 127) :
    doc (insert b idx ch).1 = doc b ∧ docLength (insert b idx ch).1 = docLength b ∧
      (insert b idx ch).2 = idx := by
  obtain ⟨hg, hc⟩ := hwf
  obtain ⟨mw, ml, md, mi⟩ := movegap_doc b ⟨hg, hc⟩ idx h0 h1
  obtain ⟨f1, f2, f3⟩ := movegap_fields b ⟨hg, hc⟩ idx h0 h1
  have hge : b.egap = b.gap := by unfold docLength at hfull; omega
  have hne : ¬ ((movegap b idx).1.gap < (movegap b idx).1.egap) := by
    rw [f2, f3]; omega
  have hbuf : insert b idx ch =
      ((movegap b idx).1, pos (movegap b idx).1 (movegap b idx).1.egap) := by
    simp only [insert, insertBuf]
    rw [if_neg (by simp [h8, h127]), if_neg hne]
  rw [hbuf]
  refine ⟨md, ml, ?_⟩
  show pos (movegap b idx).1 (movegap b idx).1.egap = idx
  rw [pos_egap _ mw, f2]
  omega

theorem C5_witness :
    WF exBFull ∧ (0 : Int) ≤ 1 ∧ (1 : Int) ≤ (docLength exBFull : Int) ∧
      docLength exBFull = exBFull.cap ∧ (97 : Nat) ≠ 8 ∧ (97 : Nat) ≠ 127 ∧
      (doc (insert exBFull 1 97).1 = doc exBFull ∧
        docLength (insert exBFull 1 97).1 = docLength exBFull ∧
        (insert exBFull 1 97).2 = 1) :=
  ⟨⟨by decide, by decide⟩, by decide, by decide, by decide, by decide, by decide,
    C5_full_insert_dropped exBFull ⟨by decide, by decide⟩ 1 (by decide) (by decide)
      (by decide) 97 (by decide) (by decide)⟩

theorem doc_getD (b : GapBuf) (hwf : WF b) (k : Nat) (hk : k < docLength b) :
    (doc b).getD k 0 = b.data (ptr b (k : Int)) := by
  unfold doc
  rw [List.getD_eq_getElem?_getD, List.getElem?_map, List.getElem?_range hk]
  rfl

theorem prevlineAux_zero (b : GapBuf) (fuel : Nat) (hf : 1 ≤ fuel) :
    prevlineAux b fuel ((0 : Nat) : Int) = 0 := by
  obtain ⟨f, rfl⟩ : ∃ f, fuel = f + 1 := ⟨fuel - 1, by omega⟩
  simp only [prevlineAux]
  have hp : ptr b (((0 : Nat) : Int) - 1) = 0 := by
    unfold ptr
    rw [if_pos (by omega)]
  rw [hp]
  simp

theorem prevlineAux_gap0 (b : GapBuf) (hwf : WF b) (hg0 : b.gap = 0)
    (he0 : 0 < b.egap) :
    ∀ n : Nat, n ≤ docLength b → ∀ fuel, n + 1 ≤ fuel →
      prevlineAux b fuel (n : Int) = (lineStartSpec (doc b) n : Int) := by
  intro n
  induction n with
  | zero =>
    intro hn fuel hf
    exact prevlineAux_zero b fuel hf
  | succ k ih =>
    intro hn fuel hf
    obtain ⟨f, rfl⟩ : ∃ f, fuel = f + 1 := ⟨fuel - 1, by omega⟩
    simp only [prevlineAux]
    have e1 : ((k + 1 : Nat) : Int) - 1 = (k : Int) := by push_cast; ring
    rw [e1, ptr_natCast b k, hg0, if_neg (Nat.not_lt_zero k), Nat.sub_zero]
    have hpos : 0 < k + b.egap := by omega
    have hbyte : (doc b).getD k 0 = b.data (k + b.egap) := by
      rw [doc_getD b hwf k (by omega), ptr_natCast, hg0,
        if_neg (Nat.not_lt_zero k), Nat.sub_zero]
    by_cases hnl : b.data (k + b.egap) = 10
    · rw [if_neg (by simp [hnl]), if_pos hpos]
      have e2 : lineStartSpec (doc b) (k + 1) = k + 1 := by
        simp only [lineStartSpec]
        rw [if_pos (hbyte.trans hnl)]
      rw [e2]
      push_cast
      ring
    · rw [if_pos ⟨hpos, hnl⟩, ih (by omega) f (by omega)]
      have e2 : lineStartSpec (doc b) (k + 1) = lineStartSpec (doc b) k := by
        simp only [lineStartSpec]
        rw [if_neg (by rw [hbyte]; exact hnl)]
      rw [e2]

theorem prevlineAux_skip0 (b : GapBuf) (hwf : WF b)
    (hno : ¬ (b.gap = 0 ∧ 0 < b.egap)) :
    ∀ n : Nat, n ≤ docLength b → ∀ fuel, n + 1 ≤ fuel →
      prevlineAux b fuel (n : Int) = (lineStartSkip0 (doc b) n : Int) := by
  intro n
  induction n with
  | zero =>
    intro hn fuel hf
    exact prevlineAux_zero b fuel hf
  | succ k ih =>
    intro hn fuel hf
    obtain ⟨f, rfl⟩ : ∃ f, fuel = f + 1 := ⟨fuel - 1, by omega⟩
    simp only [prevlineAux]
    have e1 : ((k + 1 : Nat) : Int) - 1 = (k : Int) := by push_cast; ring
    rw [e1, ptr_natCast b k]
    rcases Nat.eq_zero_or_pos k with hk0 | hk1
    · subst hk0
      have hp : (if 0 < b.gap then (0 : Nat) else 0 + (b.egap - b.gap)) = 0 := by
        split_ifs <;> omega
      rw [show (if (0 : Nat) < b.gap then (0 : Nat) else 0 + (b.egap - b.gap)) = 0 from hp]
      simp [lineStartSkip0]
    · have hppos : 0 < (if k < b.gap then k else k + (b.egap - b.gap)) := by
        split_ifs <;> omega
      have hbyte : (doc b).getD k 0 =
          b.data (if k < b.gap then k else k + (b.egap - b.gap)) := by
        rw [doc_getD b hwf k (by omega), ptr_natCast]
      by_cases hnl : b.data (if k < b.gap then k else k + (b.egap - b.gap)) = 10
      · rw [if_neg (by simp [hnl]), if_pos hppos]
        have e2 : lineStartSkip0 (doc b) (k + 1) = k + 1 := by
          simp only [lineStartSkip0]
          rw [if_neg (by omega), if_pos (hbyte.trans hnl)]
        rw [e2]
        push_cast
        ring
      · rw [if_pos ⟨hppos, hnl⟩, ih (by omega) f (by omega)]
        have e2 : lineStartSkip0 (doc b) (k + 1) = lineStartSkip0 (doc b) k := by
          simp only [lineStartSkip0]
          rw [if_neg (by omega), if_neg (by rw [hbyte]; exact hnl)]
        rw [e2]

/-- C4 amended: `prevline(offset)` returns the offset immediately after
the nearest newline strictly before `offset` — but the byte at logical
offset 0 is examined only when the gap sits at the buffer start with
nonempty gap (`gap = 0 < egap`, the only case in which logical offset 0
maps to a physical address above `buf`); otherwise the scan stops at
offset 0 as if no newline were there and returns per `lineStartSkip0`. -/
theorem C4_prevline_amended (b : GapBuf) (hwf : WF b) (n : Nat)
    (hn : n ≤ docLength b) :
    prevline b (n : Int) =
      (if b.gap = 0 ∧ 0 < b.egap then (lineStartSpec (doc b) n : Int)
       else (lineStartSkip0 (doc b) n : Int)) := by
  unfold prevline
  have e1 : ((n : Int).toNat + 1) = n + 1 := by
    simp
  rw [e1]
  by_cases hcond : b.gap = 0 ∧ 0 < b.egap
  · rw [if_pos hcond]
    exact prevlineAux_gap0 b hwf hcond.1 hcond.2 n hn (n + 1) (by omega)
  · rw [if_neg hcond]
    exact prevlineAux_skip0 b hwf hcond n hn (n + 1) (by omega)

theorem C4_witness :
    WF exB ∧ (4 : Nat) ≤ docLength exB ∧
      prevline exB ((4 : Nat) : Int) =
        (if exB.gap = 0 ∧ 0 < exB.egap then (lineStartSpec (doc exB) 4 : Int)
         else (lineStartSkip0 (doc exB) 4 : Int)) :=
  ⟨⟨by decide, by decide⟩, by decide,
    C4_prevline_amended exB ⟨by decide, by decide⟩ 4 (by decide)⟩

theorem tabSpaces_snd (i : Nat) :
    ∀ (k j : Nat) (scr : Nat → Nat → Nat), (tabSpaces scr i j k).2 = j + k := by
  intro k
  induction k with
  | zero => intro j scr; rfl
  | succ m ih =>
    intro j scr
    show (tabSpaces _ i (j + 1) m).2 = j + (m + 1)
    rw [ih (j + 1)]
    omega

theorem placeByte_fields (colMax c : Nat) (st : RenderSt) :
    (placeByte colMax c st).row = st.row ∧ (placeByte colMax c st).col = st.col ∧
      (placeByte colMax c st).i ≤ st.i + 1 ∧ (placeByte colMax c st).epage = st.epage ∧
      (1 ≤ colMax → st.j < colMax → (placeByte colMax c st).j < colMax) := by
  unfold placeByte
  split_ifs <;>
    simp_all [tabSpaces_snd] <;>
    (try (split_ifs <;> simp_all [tabSpaces_snd])) <;>
    omega

theorem recordCursor_fields (idx : Int) (st : RenderSt) :
    (recordCursor idx st).i = st.i ∧ (recordCursor idx st).j = st.j ∧
      (recordCursor idx st).epage = st.epage ∧
      ((recordCursor idx st).row = st.row ∨ (recordCursor idx st).row = st.i) ∧
      ((recordCursor idx st).col = st.col ∨ (recordCursor idx st).col = st.j) := by
  unfold recordCursor
  split_ifs <;> simp

theorem renderAux_inv (b : GapBuf) (idx : Int) (rowMax colMax : Nat)
    (hcm : 1 ≤ colMax) :
    ∀ (fuel : Nat) (st : RenderSt), st.i ≤ rowMax - 1 → st.j < colMax →
      st.row ≤ rowMax - 1 → st.col < colMax →
      (renderAux b idx rowMax colMax fuel st).row ≤ rowMax - 1 ∧
        (renderAux b idx rowMax colMax fuel st).col < colMax := by
  intro fuel
  induction fuel with
  | zero => intro st h1 h2 h3 h4; exact ⟨h3, h4⟩
  | succ f ih =>
    intro st h1 h2 h3 h4
    simp only [renderAux]
    obtain ⟨r1, r2, r3, r4, r5⟩ := recordCursor_fields idx st
    have hrow1 : (recordCursor idx st).row ≤ rowMax - 1 := by
      rcases r4 with h | h <;> omega
    have hcol1 : (recordCursor idx st).col < colMax := by
      rcases r5 with h | h <;> omega
    by_cases hbrk : rowMax - 1 ≤ (recordCursor idx st).i ∨
        b.cap ≤ ptr b (recordCursor idx st).epage
    · rw [if_pos hbrk]
      exact ⟨hrow1, hcol1⟩
    · rw [if_neg hbrk]
      push_neg at hbrk
      obtain ⟨p1, p2, p3, p4, p5⟩ :=
        placeByte_fields colMax (b.data (ptr b (recordCursor idx st).epage))
          (recordCursor idx st)
      apply ih
      · show (placeByte _ _ _).i ≤ rowMax - 1
        omega
      · show (placeByte _ _ _).j < colMax
        exact p5 hcm (by omega)
      · show (placeByte _ _ _).row ≤ rowMax - 1
        omega
      · show (placeByte _ _ _).col < colMax
        omega

/-- C7 amended: after `update_display`, the recorded cursor cell
satisfies `0 ≤ row ≤ ROWS` and `0 ≤ col < COLS`, where `ROWS =
ROW_MAX - 1` is the number of text rows — provided the previously
recorded cell already did.  `row = ROWS` (one past the last text row) is
reachable, so the claimed strict bound `row < ROWS` does not hold; the
column bound is strict as claimed. -/
theorem C7_viewport_amended (rowMax colMax : Nat) (hcm : 1 ≤ colMax)
    (s : EdState) (hrow : s.row ≤ rowMax - 1) (hcol : s.col < colMax) :
    (update_display rowMax colMax s).row ≤ rowMax - 1 ∧
      (update_display rowMax colMax s).col < colMax := by
  unfold update_display
  exact renderAux_inv s.buf s.idx rowMax colMax hcm _ _ (Nat.zero_le _) hcm hrow hcol

theorem C7_witness :
    1 ≤ 16 ∧ (initState 32 exDoc7).row ≤ 4 - 1 ∧ (initState 32 exDoc7).col < 16 ∧
      ((update_display 4 16 (initState 32 exDoc7)).row ≤ 4 - 1 ∧
        (update_display 4 16 (initState 32 exDoc7)).col < 16) :=
  ⟨by decide, by decide, by decide,
    C7_viewport_amended 4 16 (by decide) (initState 32 exDoc7) (by decide) (by decide)⟩

theorem ptr_fields_congr (b c : GapBuf) (hg : b.gap = c.gap)
    (he : b.egap = c.egap) (o : Int) : ptr b o = ptr c o := by
  unfold ptr
  rw [hg, he]

theorem doc_ext (b c : GapBuf) (hlen : docLength b = docLength c)
    (hbyte : ∀ k : Nat, k < docLength c →
      b.data (ptr b (k : Int)) = c.data (ptr c (k : Int))) :
    doc b = doc c := by
  unfold doc
  rw [hlen]
  exact mapRange_congr _ _ _ hbyte

/-- A successful (non-full, non-delete) `insert`: the byte (CR
normalized) lands at the gap front, the prefix grows by one, and the
cursor becomes `idx + 1`. -/
theorem insert_store (b : GapBuf) (hwf : WF b) (idx : Int) (h0 : 0 ≤ idx)
    (h1 : idx ≤ (docLength b : Int)) (hroom : docLength b < b.cap)
    (ch : Nat) (h8 : ch ≠ 8) (h127 : ch ≠ 127) :
    insert b idx ch =
      ({ (movegap b idx).1 with
          data := fun a => if a = (movegap b idx).1.gap then (if ch = 13 then 10 else ch)
            else (movegap b idx).1.data a,
          gap := (movegap b idx).1.gap + 1 },
        idx + 1) := by
  obtain ⟨hg, hc⟩ := hwf
  obtain ⟨mw, ml, md, mi⟩ := movegap_doc b ⟨hg, hc⟩ idx h0 h1
  obtain ⟨f1, f2, f3⟩ := movegap_fields b ⟨hg, hc⟩ idx h0 h1
  obtain ⟨mg, mc⟩ := mw
  have hroom2 : docLength b < b.cap := hroom
  unfold docLength at hroom2
  have hlt : (movegap b idx).1.gap < (movegap b idx).1.egap := by omega
  have hw2 : WF { (movegap b idx).1 with
      data := fun a => if a = (movegap b idx).1.gap then (if ch = 13 then 10 else ch)
        else (movegap b idx).1.data a,
      gap := (movegap b idx).1.gap + 1 } := by
    constructor
    · show (movegap b idx).1.gap + 1 ≤ (movegap b idx).1.egap
      omega
    · show (movegap b idx).1.egap ≤ (movegap b idx).1.cap
      omega
  have e2 : pos { (movegap b idx).1 with
      data := fun a => if a = (movegap b idx).1.gap then (if ch = 13 then 10 else ch)
        else (movegap b idx).1.data a,
      gap := (movegap b idx).1.gap + 1 }
      ({ (movegap b idx).1 with
        data := fun a => if a = (movegap b idx).1.gap then (if ch = 13 then 10 else ch)
          else (movegap b idx).1.data a,
        gap := (movegap b idx).1.gap + 1 } : GapBuf).egap = idx + 1 := by
    rw [pos_egap _ hw2]
    show (((movegap b idx).1.gap + 1 : Nat) : Int) = idx + 1
    rw [f2]
    omega
  simp only [insert, insertBuf]
  rw [if_neg (by simp [h8, h127]), if_pos hlt, e2]

/-- C6 amended: for every byte other than backspace (8) and DEL (127) —
which do not store a byte but delete one (see C10) — and every state with
room in the gap (on a full buffer the insert is dropped and the cursor
does not become `o + 1`), inserting at cursor `o` yields cursor `o + 1`,
and a backward delete there restores the document exactly (including
`ch = 13`, stored as 10 and then removed). -/
theorem C6_roundtrip_amended (b : GapBuf) (hwf : WF b) (idx : Int) (h0 : 0 ≤ idx)
    (h1 : idx ≤ (docLength b : Int)) (hroom : docLength b < b.cap)
    (ch : Nat) (h8 : ch ≠ 8) (h127 : ch ≠ 127) :
    (insert b idx ch).2 = idx + 1 ∧
      doc (insert (insert b idx ch).1 (insert b idx ch).2 8).1 = doc b := by
  obtain ⟨hg, hc⟩ := hwf
  obtain ⟨mw, ml, md, mi⟩ := movegap_doc b ⟨hg, hc⟩ idx h0 h1
  obtain ⟨f1, f2, f3⟩ := movegap_fields b ⟨hg, hc⟩ idx h0 h1
  obtain ⟨mg, mc⟩ := mw
  have hroom2 : docLength b < b.cap := hroom
  unfold docLength at hroom2
  have hlt : (movegap b idx).1.gap < (movegap b idx).1.egap := by omega
  rw [insert_store b ⟨hg, hc⟩ idx h0 h1 hroom ch h8 h127]
  refine ⟨rfl, ?_⟩
  show doc (insert { (movegap b idx).1 with
      data := fun a => if a = (movegap b idx).1.gap then (if ch = 13 then 10 else ch)
        else (movegap b idx).1.data a,
      gap := (movegap b idx).1.gap + 1 } (idx + 1) 8).1 = doc b
  have hw2 : WF { (movegap b idx).1 with
      data := fun a => if a = (movegap b idx).1.gap then (if ch = 13 then 10 else ch)
        else (movegap b idx).1.data a,
      gap := (movegap b idx).1.gap + 1 } := by
    constructor
    · show (movegap b idx).1.gap + 1 ≤ (movegap b idx).1.egap
      omega
    · show (movegap b idx).1.egap ≤ (movegap b idx).1.cap
      omega
  have hid := movegap_at_gap _ hw2
  have hcast : (({ (movegap b idx).1 with
      data := fun a => if a = (movegap b idx).1.gap then (if ch = 13 then 10 else ch)
        else (movegap b idx).1.data a,
      gap := (movegap b idx).1.gap + 1 } : GapBuf).gap : Int) = idx + 1 := by
    show (((movegap b idx).1.gap + 1 : Nat) : Int) = idx + 1
    rw [f2]
    omega
  rw [hcast] at hid
  simp only [insert, insertBuf, hid]
  rw [if_pos (show 0 < ({ (movegap b idx).1 with
      data := fun a => if a = (movegap b idx).1.gap then (if ch = 13 then 10 else ch)
        else (movegap b idx).1.data a,
      gap := (movegap b idx).1.gap + 1 } : GapBuf).gap from Nat.succ_pos _)]
  refine Eq.trans (doc_ext _ (movegap b idx).1 ?_ ?_) md
  · show (movegap b idx).1.gap + 1 - 1 + ((movegap b idx).1.cap - (movegap b idx).1.egap) =
      (movegap b idx).1.gap + ((movegap b idx).1.cap - (movegap b idx).1.egap)
    omega
  · intro k hk
    have hp : ptr { (movegap b idx).1 with
        data := fun a => if a = (movegap b idx).1.gap then (if ch = 13 then 10 else ch)
          else (movegap b idx).1.data a,
        gap := (movegap b idx).1.gap + 1 - 1 } (k : Int) =
        ptr (movegap b idx).1 (k : Int) :=
      ptr_fields_congr _ _
        (show (movegap b idx).1.gap + 1 - 1 = (movegap b idx).1.gap by omega) rfl _
    have hne : ptr (movegap b idx).1 (k : Int) ≠ (movegap b idx).1.gap := by
      rw [ptr_natCast]
      split_ifs <;> omega
    show (if ptr { (movegap b idx).1 with
        data := fun a => if a = (movegap b idx).1.gap then (if ch = 13 then 10 else ch)
          else (movegap b idx).1.data a,
        gap := (movegap b idx).1.gap + 1 - 1 } (k : Int) = (movegap b idx).1.gap
      then (if ch = 13 then 10 else ch)
      else (movegap b idx).1.data (ptr { (movegap b idx).1 with
        data := fun a => if a = (movegap b idx).1.gap then (if ch = 13 then 10 else ch)
          else (movegap b idx).1.data a,
        gap := (movegap b idx).1.gap + 1 - 1 } (k : Int))) =
      (movegap b idx).1.data (ptr (movegap b idx).1 (k : Int))
    rw [hp, if_neg hne]

theorem C6_amended_witness :
    WF exB ∧ (0 : Int) ≤ 1 ∧ (1 : Int) ≤ (docLength exB : Int) ∧
      docLength exB < exB.cap ∧ (107 : Nat) ≠ 8 ∧ (107 : Nat) ≠ 127 ∧
      ((insert exB 1 107).2 = 1 + 1 ∧
        doc (insert (insert exB 1 107).1 (insert exB 1 107).2 8).1 = doc exB) :=
  ⟨⟨by decide, by decide⟩, by decide, by decide, by decide, by decide, by decide,
    C6_roundtrip_amended exB ⟨by decide, by decide⟩ 1 (by decide) (by decide)
      (by decide) 107 (by decide) (by decide)⟩

theorem mapRange_take {α : Type} (f : Nat → α) (L m : Nat) (h : m ≤ L) :
    ((List.range L).map f).take m = (List.range m).map f := by
  rw [← List.map_take, List.take_range, min_eq_left h]

theorem mapRange_drop {α : Type} (f : Nat → α) (L m : Nat) :
    ((List.range L).map f).drop m = (List.range (L - m)).map fun i => f (m + i) := by
  apply List.ext_getElem?
  intro n
  rw [List.getElem?_drop, List.getElem?_map, List.getElem?_map]
  by_cases h : m + n < L
  · rw [List.getElem?_range h, List.getElem?_range (show n < L - m by omega)]
    rfl
  · rw [List.getElem?_eq_none (by rw [List.length_range]; omega),
      List.getElem?_eq_none (by rw [List.length_range]; omega)]
    rfl

/-- Deleting the byte at index `m - 1` from a document given as a map
over `List.range`. -/
theorem mapRange_delete {α : Type} (f : Nat → α) (L m : Nat) (h1 : 1 ≤ m)
    (h2 : m ≤ L) :
    (List.range (L - 1)).map (fun k => if k < m - 1 then f k else f (k + 1)) =
      ((List.range L).map f).take (m - 1) ++ ((List.range L).map f).drop m := by
  rw [mapRange_take f L (m - 1) (by omega), mapRange_drop f L m]
  have e : L - 1 = (m - 1) + (L - m) := by omega
  rw [e, List.range_add, List.map_append, List.map_map]
  congr 1
  · exact mapRange_congr _ _ _ fun k hk => by rw [if_pos hk]
  · refine mapRange_congr _ _ _ fun i hi => ?_
    show (if (m - 1) + i < m - 1 then f ((m - 1) + i) else f ((m - 1) + i + 1)) = f (m + i)
    rw [if_neg (by omega)]
    congr 1
    omega

/-- C10: `insert` with byte 8 (backspace) or 127 (DEL) never stores a
byte: it performs a backward delete.  When the cursor is positive the
live document loses exactly the byte at `cursor - 1`, the length drops by
one and the cursor moves back by one; at cursor 0 the document and cursor
are unchanged. -/
theorem C10_bs_del (b : GapBuf) (hwf : WF b) (idx : Int) (h0 : 0 ≤ idx)
    (h1 : idx ≤ (docLength b : Int)) (ch : Nat) (hch : ch = 8 ∨ ch = 127) :
    (0 < idx →
      doc (insert b idx ch).1 =
        (doc b).take (idx.toNat - 1) ++ (doc b).drop idx.toNat ∧
      docLength (insert b idx ch).1 = docLength b - 1 ∧
      (insert b idx ch).2 = idx - 1) ∧
    (idx = 0 → doc (insert b idx ch).1 = doc b ∧ (insert b idx ch).2 = 0) := by
  obtain ⟨hg, hc⟩ := hwf
  obtain ⟨mw, ml, md, mi⟩ := movegap_doc b ⟨hg, hc⟩ idx h0 h1
  obtain ⟨f1, f2, f3⟩ := movegap_fields b ⟨hg, hc⟩ idx h0 h1
  obtain ⟨mg, mc⟩ := mw
  have ml2 : docLength (movegap b idx).1 = docLength b := ml
  unfold docLength at ml2
  constructor
  · intro hpos
    have hg1 : 0 < (movegap b idx).1.gap := by rw [f2]; omega
    simp only [insert, insertBuf]
    rw [if_pos hch, if_pos hg1]
    have hw3 : WF { (movegap b idx).1 with gap := (movegap b idx).1.gap - 1 } := by
      constructor
      · show (movegap b idx).1.gap - 1 ≤ (movegap b idx).1.egap
        omega
      · show (movegap b idx).1.egap ≤ (movegap b idx).1.cap
        omega
    have hlen3 : docLength { (movegap b idx).1 with gap := (movegap b idx).1.gap - 1 } =
        docLength b - 1 := by
      show (movegap b idx).1.gap - 1 + ((movegap b idx).1.cap - (movegap b idx).1.egap) =
        docLength b - 1
      unfold docLength
      omega
    refine ⟨?_, hlen3, ?_⟩
    · rw [← md]
      have hdoc1 : doc (movegap b idx).1 = (List.range (docLength b)).map
          fun k : Nat => (movegap b idx).1.data (ptr (movegap b idx).1 (k : Int)) := by
        unfold doc
        rw [ml]
      have hdoc3 : doc { (movegap b idx).1 with gap := (movegap b idx).1.gap - 1 } =
          (List.range (docLength b - 1)).map
            fun k : Nat => if k < idx.toNat - 1
              then (movegap b idx).1.data (ptr (movegap b idx).1 (k : Int))
              else (movegap b idx).1.data (ptr (movegap b idx).1 ((k + 1 : Nat) : Int)) := by
        unfold doc
        rw [hlen3]
        refine mapRange_congr _ _ _ fun k hk => ?_
        have hp3 : ptr { (movegap b idx).1 with gap := (movegap b idx).1.gap - 1 }
            (k : Int) = if k < idx.toNat - 1 then ptr (movegap b idx).1 (k : Int)
              else ptr (movegap b idx).1 ((k + 1 : Nat) : Int) := by
          rw [ptr_natCast, ptr_natCast, ptr_natCast]
          show (if k < (movegap b idx).1.gap - 1 then k
              else k + ((movegap b idx).1.egap - ((movegap b idx).1.gap - 1))) = _
          split_ifs <;> omega
        show (movegap b idx).1.data (ptr { (movegap b idx).1 with
            gap := (movegap b idx).1.gap - 1 } (k : Int)) = _
        rw [hp3, apply_ite (movegap b idx).1.data]
      rw [hdoc1, hdoc3]
      exact mapRange_delete
        (fun k : Nat => (movegap b idx).1.data (ptr (movegap b idx).1 (k : Int)))
        (docLength b) idx.toNat (by omega) (by omega)
    · show pos { (movegap b idx).1 with gap := (movegap b idx).1.gap - 1 }
        ({ (movegap b idx).1 with gap := (movegap b idx).1.gap - 1 } : GapBuf).egap =
        idx - 1
      rw [pos_egap _ hw3]
      show (((movegap b idx).1.gap - 1 : Nat) : Int) = idx - 1
      rw [f2]
      omega
  · intro hz
    have hg1 : ¬ (0 < (movegap b idx).1.gap) := by rw [f2]; omega
    simp only [insert, insertBuf]
    rw [if_pos hch, if_neg hg1]
    refine ⟨md, ?_⟩
    rw [pos_egap _ ⟨mg, mc⟩, f2]
    omega

theorem C10_witness :
    WF exB ∧ (0 : Int) ≤ 3 ∧ (3 : Int) ≤ (docLength exB : Int) ∧
      ((8 : Nat) = 8 ∨ (8 : Nat) = 127) ∧
      ((0 < (3 : Int) →
        doc (insert exB 3 8).1 =
          (doc exB).take ((3 : Int).toNat - 1) ++ (doc exB).drop (3 : Int).toNat ∧
        docLength (insert exB 3 8).1 = docLength exB - 1 ∧
        (insert exB 3 8).2 = 3 - 1) ∧
      ((3 : Int) = 0 → doc (insert exB 3 8).1 = doc exB ∧ (insert exB 3 8).2 = 0)) :=
  ⟨⟨by decide, by decide⟩, by decide, by decide, by decide,
    C10_bs_del exB ⟨by decide, by decide⟩ 3 (by decide) (by decide) 8 (by decide)⟩

end Vce
